import Mathlib

/-!
Shallow embedding of the invertible residual network (iRevNet) implemented in
src/model/src/distill/models/iRevNet.py, together with the configuration-level
stack construction from the same file.

Modelling choices:
* A tensor is modelled per sample as its list of channels, each channel being
  the flattened spatial data (a list of integers).  Arithmetic is exact
  (integers), matching the "infinite precision" reading of the invertibility
  contract; the learned bottleneck transform F is an abstract function field,
  since its value depends on learned parameters.
* `split`, `merge`, `injective_pad` and `psi` are imported by the source file
  from `.model_utils`, which is not present under src/; those four operations
  are modelled from the spec (each is marked in its doc comment).
* The classification head of `iRevNet.forward` (batch norm, ReLU, average
  pooling, flatten, linear; lines 134-137) is abstracted as one learned map
  `head`, since every claim concerns only the bijective branch `out_bij`.
-/

abbrev Tensor := List (List Int)

/-- Elementwise tensor addition (`Fx2 + x1` in the source). -/
def tensorAdd (a b : Tensor) : Tensor :=
  List.zipWith (fun c d => List.zipWith (fun u v : Int => u + v) c d) a b

/-- Elementwise tensor negation (`- self.bottleneck_block(x2)` in the source). -/
def tensorNeg (a : Tensor) : Tensor :=
  a.map (fun c => c.map (fun u : Int => -u))

/-- Two tensors have the same channel count and the same per-channel spatial size. -/
def sameDims (a b : Tensor) : Prop :=
  a.map List.length = b.map List.length

/-- Modelled from the spec: `split` (from `.model_utils`, not under src/)
partitions the channels in a fixed, deterministic order: first half, second
half; it matches the explicit slicing `x[:, :n, :, :], x[:, n:, :, :]` used in
`iRevNet.forward`. -/
def split (t : Tensor) : Tensor × Tensor :=
  (t.take (t.length / 2), t.drop (t.length / 2))

/-- Modelled from the spec: `merge` (from `.model_utils`, not under src/)
concatenates the two channel groups back into one tensor. -/
def merge (a b : Tensor) : Tensor := a ++ b

/-- Spatial size of a tensor, read off its first channel. -/
def spatialLen (t : Tensor) : Nat := (t.headD []).length

/-- Modelled from the spec: `injective_pad.forward` (from `.model_utils`, not
under src/) appends `pad_size` all-zero channels: "reversible channel-count
expansion via zero-padding". -/
def injective_pad.forward (pad_size : Nat) (t : Tensor) : Tensor :=
  t ++ List.replicate pad_size (List.replicate (spatialLen t) 0)

/-- Modelled from the spec: `injective_pad.inverse` (from `.model_utils`, not
under src/) truncates the injected channels: "invertible by truncation". -/
def injective_pad.inverse (pad_size : Nat) (t : Tensor) : Tensor :=
  t.take (t.length - pad_size)

/-- Splits a list into consecutive chunks of length `k` (the last chunk may be
shorter); empty for `k = 0`.  Support function for the spatial permutation. -/
def chunkEvery (k : Nat) (l : List α) : List (List α) :=
  match l with
  | [] => []
  | a :: l' =>
    if k = 0 then [] else (a :: l'.take (k - 1)) :: chunkEvery k (l'.drop (k - 1))
termination_by l.length
decreasing_by simp [List.length_drop]; omega

/-- Modelled from the spec: `psi.forward` (from `.model_utils`, not under
src/) is "a fixed bijection trading spatial resolution for channel depth":
each channel of spatial size `s` becomes `block_size ^ 2` channels of spatial
size `s / block_size ^ 2`, in a fixed deterministic order. -/
def psi.forward (block_size : Nat) (t : Tensor) : Tensor :=
  t.flatMap (fun c => chunkEvery (c.length / (block_size * block_size)) c)

/-- Modelled from the spec: `psi.inverse` (from `.model_utils`, not under
src/) is the exact inverse of `psi.forward`: it regroups every
`block_size ^ 2` consecutive channels back into one channel. -/
def psi.inverse (block_size : Nat) (t : Tensor) : Tensor :=
  (chunkEvery (block_size * block_size) t).map List.flatten

/-- An invertible bottleneck block (class `irevnet_block`, lines 16-46).
`dropout_rate`, `affineBN` and `mult` only parameterize the construction of
the learned bottleneck sub-network, which is carried abstractly as the
function `bottleneck_block` (the spec's `F`); the structural fields that the
forward/inverse data paths read are kept explicitly. -/
structure irevnet_block where
  in_ch : Nat
  out_ch : Nat
  stride : Nat
  first : Bool
  bottleneck_block : Tensor → Tensor

/-- `self.pad = 2 * out_ch - in_ch` (line 22); an integer, as in the source. -/
def irevnet_block.pad (b : irevnet_block) : Int :=
  2 * (b.out_ch : Int) - (b.in_ch : Int)

/-- The injective-padding pre-step of `irevnet_block.forward` (lines 50-54):
when `pad != 0 and stride == 1`, merge the pair, zero-pad the channels, and
re-split; otherwise pass the pair through unchanged. -/
def irevnet_block.padInput (b : irevnet_block) (x : Tensor × Tensor) : Tensor × Tensor :=
  if b.pad ≠ 0 ∧ b.stride = 1 then
    split (injective_pad.forward b.pad.toNat (merge x.1 x.2))
  else x

/-- `irevnet_block.forward` (lines 48-62): optional injective padding, then
`Fx2 = F(x2)`; at stride 2 the spatial permutation is applied to both halves;
the result is `(x2, Fx2 + x1)`. -/
def irevnet_block.forward (b : irevnet_block) (x : Tensor × Tensor) : Tensor × Tensor :=
  let x := b.padInput x
  let x1 := x.1
  let x2 := x.2
  let Fx2 := b.bottleneck_block x2
  let x1 := if b.stride = 2 then psi.forward b.stride x1 else x1
  let x2 := if b.stride = 2 then psi.forward b.stride x2 else x2
  let y1 := tensorAdd Fx2 x1
  (x2, y1)

/-- `irevnet_block.inverse` (lines 64-80): undo the permutation on `x2` at
stride 2, recompute `Fx2 = -F(x2)`, recover `x1 = Fx2 + y1`, undo the
permutation on `x1`, and at the padded configuration merge/truncate/re-split. -/
def irevnet_block.inverse (b : irevnet_block) (x : Tensor × Tensor) : Tensor × Tensor :=
  let x2 := x.1
  let y1 := x.2
  let x2 := if b.stride = 2 then psi.inverse b.stride x2 else x2
  let Fx2 := tensorNeg (b.bottleneck_block x2)
  let x1 := tensorAdd Fx2 y1
  let x1 := if b.stride = 2 then psi.inverse b.stride x1 else x1
  if b.pad ≠ 0 ∧ b.stride = 1 then
    split (injective_pad.inverse b.pad.toNat (merge x1 x2))
  else (x1, x2)

/-- State-passing form of `irevnet_block.forward`: the method body (lines
48-62) binds only locals and reads `self`, assigning no attribute, so the
post-state block is unchanged. -/
def irevnet_block.forwardS (b : irevnet_block) (x : Tensor × Tensor) :
    irevnet_block × (Tensor × Tensor) :=
  (b, b.forward x)

/-- State-passing form of `irevnet_block.inverse` (lines 64-80): no attribute
assignment, so the post-state block is unchanged. -/
def irevnet_block.inverseS (b : irevnet_block) (x : Tensor × Tensor) :
    irevnet_block × (Tensor × Tensor) :=
  (b, b.inverse x)

/-- All channels of `t` have positive spatial size divisible by
`block_size ^ 2`: the shape condition under which the spatial permutation is
a bijection. -/
def psiOK (block_size : Nat) (t : Tensor) : Prop :=
  ∀ c ∈ t, 0 < c.length ∧ (block_size * block_size) ∣ c.length

/-- Valid block configuration plus matching input shapes: the conditions the
spec assumes for block invertibility (stride 1 or 2; matching shapes between
the residual `F`-output and the half it is added to; at stride 2, spatial
sizes compatible with the permutation). -/
def blockOK (b : irevnet_block) (x1 x2 : Tensor) : Prop :=
  (b.stride = 2 ∧ psiOK 2 x1 ∧ psiOK 2 x2 ∧
    sameDims (b.bottleneck_block x2) (psi.forward 2 x1)) ∨
  (b.stride = 1 ∧ x1.length = x2.length ∧
    sameDims (b.bottleneck_block (b.padInput (x1, x2)).2) (b.padInput (x1, x2)).1)

instance (block_size : Nat) (t : Tensor) : Decidable (psiOK block_size t) :=
  inferInstanceAs
    (Decidable (∀ c ∈ t, 0 < c.length ∧ (block_size * block_size) ∣ c.length))

instance (a b : Tensor) : Decidable (sameDims a b) :=
  inferInstanceAs (Decidable (a.map List.length = b.map List.length))

instance (b : irevnet_block) (x1 x2 : Tensor) : Decidable (blockOK b x1 x2) :=
  inferInstanceAs
    (Decidable ((b.stride = 2 ∧ psiOK 2 x1 ∧ psiOK 2 x2 ∧
        sameDims (b.bottleneck_block x2) (psi.forward 2 x1)) ∨
      (b.stride = 1 ∧ x1.length = x2.length ∧
        sameDims (b.bottleneck_block (b.padInput (x1, x2)).2) (b.padInput (x1, x2)).1)))

/-- The forward loop of `iRevNet.forward` (lines 131-132): apply every block
of the stack in order. -/
def stackForward (bs : List irevnet_block) (x : Tensor × Tensor) : Tensor × Tensor :=
  bs.foldl (fun o blk => blk.forward o) x

/-- The inverse loop of `iRevNet.inverse` (lines 143-144): apply every
block's inverse in strictly reversed stack order. -/
def stackInverse (bs : List irevnet_block) (x : Tensor × Tensor) : Tensor × Tensor :=
  bs.reverse.foldl (fun o blk => blk.inverse o) x

/-- Along the forward pass starting at `x`, every block of the stack meets
the shape conditions of `blockOK`. -/
def stackOK : List irevnet_block → Tensor × Tensor → Prop
  | [], _ => True
  | b :: bs, x => blockOK b x.1 x.2 ∧ stackOK bs (b.forward x)

instance stackOKDecidable : (bs : List irevnet_block) → (x : Tensor × Tensor) →
    Decidable (stackOK bs x)
  | [], _ => .isTrue trivial
  | b :: bs, x =>
    have : Decidable (stackOK bs (b.forward x)) := stackOKDecidable bs (b.forward x)
    inferInstanceAs (Decidable (blockOK b x.1 x.2 ∧ stackOK bs (b.forward x)))

/-- The learned state of a constructed `iRevNet` (class `iRevNet`, lines
83-150) that its forward/inverse data paths read: the initial downsampling
amount `init_ds`, the doubled input channel count `in_ch`, the block stack,
and the classification head (lines 104-105 and 134-137) abstracted as one
learned map applied to `out_bij`. -/
structure iRevNet where
  init_ds : Nat
  in_ch : Nat
  stack : List irevnet_block
  head : Tensor → Tensor

/-- The optional initial spatial-permutation downsampling of
`iRevNet.forward` (lines 128-129). -/
def iRevNet.initDown (net : iRevNet) (x : Tensor) : Tensor :=
  if net.init_ds ≠ 0 then psi.forward net.init_ds x else x

/-- The two-way channel view `(x[:, :n, :, :], x[:, n:, :, :])` with
`n = in_ch // 2` (lines 127 and 130). -/
def iRevNet.initPair (net : iRevNet) (x : Tensor) : Tensor × Tensor :=
  ((net.initDown x).take (net.in_ch / 2), (net.initDown x).drop (net.in_ch / 2))

/-- `iRevNet.forward` (lines 125-138): downsample, split, run the stack,
merge into `out_bij`, and return `(head out_bij, out_bij)`. -/
def iRevNet.forward (net : iRevNet) (x : Tensor) : Tensor × Tensor :=
  let out := stackForward net.stack (net.initPair x)
  let out_bij := merge out.1 out.2
  (net.head out_bij, out_bij)

/-- `iRevNet.inverse` (lines 140-150): split `out_bij`, run every block's
inverse in reversed order, merge, and undo the initial permutation when
`init_ds != 0`. -/
def iRevNet.inverse (net : iRevNet) (out_bij : Tensor) : Tensor :=
  let out := stackInverse net.stack (split out_bij)
  let out2 := merge out.1 out.2
  if net.init_ds ≠ 0 then psi.inverse net.init_ds out2 else out2

/-- State-passing form of `iRevNet.forward`: the method (lines 125-138)
assigns no attribute, so the post-state network is unchanged. -/
def iRevNet.forwardS (net : iRevNet) (x : Tensor) : iRevNet × (Tensor × Tensor) :=
  (net, net.forward x)

/-- State-passing form of `iRevNet.inverse` (lines 140-150): no attribute
assignment, so the post-state network is unchanged. -/
def iRevNet.inverseS (net : iRevNet) (out_bij : Tensor) : iRevNet × Tensor :=
  (net, net.inverse out_bij)

/-- Configuration of one constructed block: the arguments `iRevNet`'s stack
builder passes to the `irevnet_block` constructor (lines 117-120), in order. -/
structure BlockCfg where
  in_ch : Nat
  out_ch : Nat
  stride : Nat
  first : Bool
  dropout_rate : ℚ
  affineBN : Bool
  mult : Nat
deriving DecidableEq, Repr

/-- The schedule-expansion loop of `iRevNet.irevnet_stack` (lines 111-115):
zip the three per-stage lists and accumulate, for each stage, the stride list
`[stride] + [1]*(depth-1)` and the channel list `[channel]*depth`.  Returns
`(strides, channels)`. -/
def expandSchedule (nChannels nBlocks nStrides : List Nat) : List Nat × List Nat :=
  (nChannels.zip (nBlocks.zip nStrides)).foldl
    (fun acc t =>
      (acc.1 ++ (t.2.2 :: List.replicate (t.2.1 - 1) 1),
       acc.2 ++ List.replicate t.2.1 t.1))
    ([], [])

/-- `iRevNet.irevnet_stack` (lines 107-123) at configuration level: expand
the schedules, then build one `BlockCfg` per `(channel, stride)` pair,
threading the running input channel count (`in_ch = 2 * channel` after each
block, line 121) and the `first` flag (set `False` after the first block,
line 122). -/
def irevnet_stack (nChannels nBlocks nStrides : List Nat) (dropout_rate : ℚ)
    (affineBN : Bool) (in_ch : Nat) (mult : Nat) : List BlockCfg :=
  let sched := expandSchedule nChannels nBlocks nStrides
  ((sched.2.zip sched.1).foldl
    (fun (acc : List BlockCfg × Nat × Bool) cs =>
      (acc.1 ++ [⟨acc.2.1, cs.1, cs.2, acc.2.2, dropout_rate, affineBN, mult⟩],
       2 * cs.1, false))
    ([], in_ch, true)).1

/-- Recursive characterization of the block-building loop, used in proofs:
same blocks as the fold in `irevnet_stack`, built head-first. -/
def buildBlocks (dropout_rate : ℚ) (affineBN : Bool) (mult : Nat) :
    List (Nat × Nat) → Nat → Bool → List BlockCfg
  | [], _, _ => []
  | cs :: rest, ic, fi =>
    ⟨ic, cs.1, cs.2, fi, dropout_rate, affineBN, mult⟩ ::
      buildBlocks dropout_rate affineBN mult rest (2 * cs.1) false

/-- The configuration data computed by `iRevNet.__init__` (lines 84-105):
the pooling size `ds`, the doubled input channel count `in_ch`, the channel
schedule actually used (with the default of lines 95-97 when `nChannels` is
absent or empty), and the constructed stack.  The head layers (lines 104-105)
carry no configuration beyond `nChannels[-1]*2` and `nClasses` and are not
recorded. -/
structure iRevNetCfg where
  ds : Nat
  init_ds : Nat
  in_ch : Nat
  nChannels : List Nat
  stack : List BlockCfg
deriving DecidableEq, Repr

/-- `iRevNet.__init__` (lines 84-105) at configuration level.  `nChannels`
is optional; `if not nChannels` (line 95) is true exactly when it is `None`
or the empty list, in which case the four-stage default is used. -/
def iRevNet.init (nBlocks nStrides : List Nat) (nChannels : Option (List Nat))
    (init_ds : Nat) (dropout_rate : ℚ) (affineBN : Bool) (in_shape : List Nat)
    (mult : Nat) : iRevNetCfg :=
  let ds := in_shape.getD 2 0 / 2 ^ (nStrides.count 2 + init_ds / 2)
  let in_ch := in_shape.getD 0 0 * 2 ^ init_ds
  let nCh := match nChannels with
    | none => [in_ch / 2, in_ch / 2 * 4, in_ch / 2 * 4 ^ 2, in_ch / 2 * 4 ^ 3]
    | some l =>
      if l = [] then [in_ch / 2, in_ch / 2 * 4, in_ch / 2 * 4 ^ 2, in_ch / 2 * 4 ^ 3]
      else l
  ⟨ds, init_ds, in_ch,
   nCh, irevnet_stack nCh nBlocks nStrides dropout_rate affineBN in_ch mult⟩

/-- Concrete bijective block used by witnesses: 2 -> 1 channels, stride 1,
`pad = 0`, with the identity as the learned bottleneck transform. -/
def blockW1 : irevnet_block := ⟨2, 1, 1, true, fun t => t⟩

/-- Concrete stride-2 block used by witnesses. -/
def blockW5 : irevnet_block := ⟨4, 8, 2, false, fun t => t⟩

/-- Concrete injective (padded) block used by witnesses: 2 -> 2 channels at
stride 1, so `pad = 2 > 0`. -/
def blockW7 : irevnet_block := ⟨2, 2, 1, false, fun t => t⟩

/-- Concrete one-block network used by witnesses (`init_ds = 0`). -/
def netW : iRevNet := ⟨0, 2, [blockW1], fun t => t⟩

/-- Concrete network with an empty stack used by the frame-effect witness. -/
def netWA : iRevNet := ⟨0, 2, [], fun t => t⟩

/-- Same stack and `init_ds` as `netWA` but different head and `in_ch`:
used to witness that `iRevNet.inverse` reads neither. -/
def netWB : iRevNet := ⟨0, 99, [], fun _ => []⟩

theorem chunkEvery_nil (k : Nat) : chunkEvery k ([] : List α) = [] := by
  simp [chunkEvery]

theorem chunkEvery_cons_eq (k : Nat) (hk : k ≠ 0) (a : α) (l : List α) :
    chunkEvery k (a :: l) = ((a :: l).take k) :: chunkEvery k ((a :: l).drop k) := by
  cases k with
  | zero => exact absurd rfl hk
  | succ n => simp [chunkEvery]

theorem flatten_chunkEvery (k : Nat) (hk : k ≠ 0) :
    ∀ (n : Nat) (l : List α), l.length ≤ n → (chunkEvery k l).flatten = l := by
  intro n
  induction n with
  | zero =>
    intro l hl
    have : l = [] := List.eq_nil_of_length_eq_zero (Nat.le_zero.mp hl)
    subst this
    simp [chunkEvery_nil]
  | succ n ih =>
    intro l hl
    cases l with
    | nil => simp [chunkEvery_nil]
    | cons a l' =>
      rw [chunkEvery_cons_eq k hk]
      have hdl : ((a :: l').drop k).length ≤ n := by
        simp only [List.length_drop, List.length_cons]
        simp only [List.length_cons] at hl
        cases k with
        | zero => exact absurd rfl hk
        | succ m => omega
      rw [List.flatten_cons, ih _ hdl, List.take_append_drop]

theorem chunkEvery_append (k : Nat) (hk : k ≠ 0) :
    ∀ (m : Nat) (l₁ l₂ : List α), l₁.length = k * m →
      chunkEvery k (l₁ ++ l₂) = chunkEvery k l₁ ++ chunkEvery k l₂ := by
  intro m
  induction m with
  | zero =>
    intro l₁ l₂ h
    have : l₁ = [] := List.eq_nil_of_length_eq_zero (by omega)
    subst this
    simp [chunkEvery_nil]
  | succ m ih =>
    intro l₁ l₂ h
    have hk0 : 0 < k := Nat.pos_of_ne_zero hk
    have hlen : 0 < l₁.length := by
      rw [h]; exact Nat.mul_pos hk0 (Nat.succ_pos m)
    cases l₁ with
    | nil => simp at hlen
    | cons a t =>
      have hkle : k ≤ (a :: t).length := by
        rw [h, Nat.mul_succ]; omega
      have htake : (a :: (t ++ l₂)).take k = (a :: t).take k := by
        rw [← List.cons_append]; exact List.take_append_of_le_length hkle
      have hdrop : (a :: (t ++ l₂)).drop k = (a :: t).drop k ++ l₂ := by
        rw [← List.cons_append]; exact List.drop_append_of_le_length hkle
      rw [List.cons_append, chunkEvery_cons_eq k hk, htake, hdrop,
        ih ((a :: t).drop k) l₂ (by rw [List.length_drop, h, Nat.mul_succ]; omega),
        chunkEvery_cons_eq k hk (a := a) (l := t)]
      simp

theorem length_chunkEvery (k : Nat) (hk : k ≠ 0) :
    ∀ (m : Nat) (l : List α), l.length = k * m → (chunkEvery k l).length = m := by
  intro m
  induction m with
  | zero =>
    intro l h
    have : l = [] := List.eq_nil_of_length_eq_zero (by omega)
    subst this
    simp [chunkEvery_nil]
  | succ m ih =>
    intro l h
    have hk0 : 0 < k := Nat.pos_of_ne_zero hk
    have hlen : 0 < l.length := by
      rw [h]; exact Nat.mul_pos hk0 (Nat.succ_pos m)
    cases l with
    | nil => simp at hlen
    | cons a t =>
      rw [chunkEvery_cons_eq k hk]
      rw [List.length_cons, ih ((a :: t).drop k) (by rw [List.length_drop, h, Nat.mul_succ]; omega)]

theorem chunkEvery_length_self (k : Nat) (hk : k ≠ 0) (l : List α) (h : l.length = k) :
    chunkEvery k l = [l] := by
  cases l with
  | nil => exact absurd h.symm hk
  | cons a t =>
    rw [chunkEvery_cons_eq k hk]
    rw [List.take_of_length_le (le_of_eq h), List.drop_eq_nil_of_le (le_of_eq h),
      chunkEvery_nil]

theorem psi_inverse_forward (block_size : Nat) (hb : block_size ≠ 0) (t : Tensor)
    (h : psiOK block_size t) : psi.inverse block_size (psi.forward block_size t) = t := by
  induction t with
  | nil => simp [psi.forward, psi.inverse, chunkEvery_nil]
  | cons c t ih =>
    have hc : 0 < c.length ∧ (block_size * block_size) ∣ c.length :=
      h c (List.mem_cons_self c t)
    have hrest : psiOK block_size t := fun d hd => h d (List.mem_cons_of_mem c hd)
    have hk : block_size * block_size ≠ 0 := Nat.mul_ne_zero hb hb
    obtain ⟨m, hm⟩ := hc.2
    have hm0 : m ≠ 0 := by
      intro h0; rw [h0, Nat.mul_zero] at hm; omega
    have hdiv : c.length / (block_size * block_size) = m := by
      rw [hm]; exact Nat.mul_div_cancel_left m (Nat.pos_of_ne_zero hk)
    have hchlen : (chunkEvery m c).length = block_size * block_size :=
      length_chunkEvery m hm0 (block_size * block_size) c (by rw [hm, Nat.mul_comm])
    simp only [psi.forward, List.flatMap_cons, hdiv]
    simp only [psi.inverse]
    rw [chunkEvery_append (block_size * block_size) hk 1 _ _ (by rw [hchlen]; ring)]
    rw [chunkEvery_length_self (block_size * block_size) hk _ hchlen]
    simp only [List.map_append, List.map_cons, List.map_nil]
    rw [flatten_chunkEvery m hm0 c.length c (le_refl _)]
    simp only [List.cons_append, List.nil_append, List.cons.injEq]
    exact ⟨by trivial, ih hrest⟩

theorem zipWith_add_neg_cancel :
    ∀ (f x : List Int), f.length = x.length →
      List.zipWith (fun u v : Int => u + v) (f.map (fun u : Int => -u))
        (List.zipWith (fun u v : Int => u + v) f x) = x := by
  intro f
  induction f with
  | nil =>
    intro x h
    cases x with
    | nil => rfl
    | cons b x => simp at h
  | cons a f ih =>
    intro x h
    cases x with
    | nil => simp at h
    | cons b x =>
      simp only [List.map_cons, List.zipWith_cons_cons]
      rw [ih x (by simpa using h)]
      congr 1
      omega

theorem tensorAdd_neg_cancel :
    ∀ (f x : Tensor), sameDims f x → tensorAdd (tensorNeg f) (tensorAdd f x) = x := by
  intro f
  induction f with
  | nil =>
    intro x h
    cases x with
    | nil => rfl
    | cons b x => simp [sameDims] at h
  | cons a f ih =>
    intro x h
    cases x with
    | nil => simp [sameDims] at h
    | cons b x =>
      simp only [sameDims, List.map_cons, List.cons.injEq] at h
      simp only [tensorAdd, tensorNeg, List.map_cons, List.zipWith_cons_cons]
      rw [show List.zipWith (fun u v : Int => u + v) (a.map (fun u : Int => -u))
            (List.zipWith (fun u v : Int => u + v) a b) = b
          from zipWith_add_neg_cancel a b h.1]
      have := ih x h.2
      simp only [tensorAdd, tensorNeg] at this
      rw [this]

theorem merge_split_eq (t : Tensor) : merge (split t).1 (split t).2 = t :=
  List.take_append_drop (t.length / 2) t

theorem split_merge_eq (a b : Tensor) (h : a.length = b.length) :
    split (merge a b) = (a, b) := by
  have hhalf : (a ++ b).length / 2 = a.length := by
    simp only [List.length_append]
    omega
  simp only [split, merge, hhalf]
  rw [List.take_left, List.drop_left]

theorem injective_pad_inverse_forward (pad_size : Nat) (t : Tensor) :
    injective_pad.inverse pad_size (injective_pad.forward pad_size t) = t := by
  simp only [injective_pad.inverse, injective_pad.forward, List.length_append,
    List.length_replicate, Nat.add_sub_cancel]
  rw [List.take_left]

theorem split_length_sum (t : Tensor) :
    (split t).1.length + (split t).2.length = t.length := by
  simp only [split, List.length_take, List.length_drop]
  omega

theorem block_inverse_forward_aux (b : irevnet_block) (x1 x2 : Tensor)
    (h : blockOK b x1 x2) : b.inverse (b.forward (x1, x2)) = (x1, x2) := by
  rcases h with ⟨h2, hp1, hp2, hdim⟩ | ⟨h1, hlen, hdim⟩
  · have hfwd : b.forward (x1, x2) =
        (psi.forward 2 x2, tensorAdd (b.bottleneck_block x2) (psi.forward 2 x1)) := by
      simp [irevnet_block.forward, irevnet_block.padInput, h2]
    have hx2 : psi.inverse 2 (psi.forward 2 x2) = x2 :=
      psi_inverse_forward 2 (by decide) x2 hp2
    have hx1a : tensorAdd (tensorNeg (b.bottleneck_block x2))
        (tensorAdd (b.bottleneck_block x2) (psi.forward 2 x1)) = psi.forward 2 x1 :=
      tensorAdd_neg_cancel _ _ hdim
    have hx1b : psi.inverse 2 (psi.forward 2 x1) = x1 :=
      psi_inverse_forward 2 (by decide) x1 hp1
    rw [hfwd]
    simp [irevnet_block.inverse, h2, hx2, hx1a, hx1b]
  · by_cases hp : b.pad = 0
    · have hfwd : b.forward (x1, x2) = (x2, tensorAdd (b.bottleneck_block x2) x1) := by
        simp [irevnet_block.forward, irevnet_block.padInput, h1, hp]
      have hdim0 : sameDims (b.bottleneck_block x2) x1 := by
        simpa [irevnet_block.padInput, h1, hp] using hdim
      have hx1 : tensorAdd (tensorNeg (b.bottleneck_block x2))
          (tensorAdd (b.bottleneck_block x2) x1) = x1 :=
        tensorAdd_neg_cancel _ _ hdim0
      rw [hfwd]
      simp [irevnet_block.inverse, h1, hp, hx1]
    · have hfwd : b.forward (x1, x2) =
          ((split (injective_pad.forward b.pad.toNat (merge x1 x2))).2,
           tensorAdd
             (b.bottleneck_block
               (split (injective_pad.forward b.pad.toNat (merge x1 x2))).2)
             (split (injective_pad.forward b.pad.toNat (merge x1 x2))).1) := by
        simp [irevnet_block.forward, irevnet_block.padInput, h1, hp]
      have hdim2 : sameDims
          (b.bottleneck_block
            (split (injective_pad.forward b.pad.toNat (merge x1 x2))).2)
          (split (injective_pad.forward b.pad.toNat (merge x1 x2))).1 := by
        simpa [irevnet_block.padInput, h1, hp] using hdim
      have hx1 : tensorAdd
          (tensorNeg (b.bottleneck_block
            (split (injective_pad.forward b.pad.toNat (merge x1 x2))).2))
          (tensorAdd
            (b.bottleneck_block
              (split (injective_pad.forward b.pad.toNat (merge x1 x2))).2)
            (split (injective_pad.forward b.pad.toNat (merge x1 x2))).1) =
          (split (injective_pad.forward b.pad.toNat (merge x1 x2))).1 :=
        tensorAdd_neg_cancel _ _ hdim2
      have hmerge : merge (split (injective_pad.forward b.pad.toNat (merge x1 x2))).1
          (split (injective_pad.forward b.pad.toNat (merge x1 x2))).2 =
          injective_pad.forward b.pad.toNat (merge x1 x2) := merge_split_eq _
      have hinj : injective_pad.inverse b.pad.toNat
          (injective_pad.forward b.pad.toNat (merge x1 x2)) = merge x1 x2 :=
        injective_pad_inverse_forward _ _
      have hsp : split (merge x1 x2) = (x1, x2) := split_merge_eq x1 x2 hlen
      rw [hfwd]
      simp [irevnet_block.inverse, h1, hp, hx1, hmerge, hinj, hsp]

/-- C1: for every valid block configuration and input pair of matching shape
(`blockOK`), the block inverse undoes the block forward exactly in the
integer (infinite-precision) model, the two evaluations of the deterministic
`F` agreeing by construction. -/
theorem irevnet_block_inverse_forward (b : irevnet_block) (x1 x2 : Tensor)
    (h : blockOK b x1 x2) : b.inverse (b.forward (x1, x2)) = (x1, x2) :=
  block_inverse_forward_aux b x1 x2 h

theorem irevnet_block_inverse_forward_witness :
    blockOK blockW1 [[3]] [[4]] ∧
      blockW1.inverse (blockW1.forward ([[3]], [[4]])) = ([[3]], [[4]]) :=
  ⟨by decide, irevnet_block_inverse_forward blockW1 [[3]] [[4]] (by decide)⟩

theorem stackInverse_stackForward :
    ∀ (bs : List irevnet_block) (x : Tensor × Tensor), stackOK bs x →
      stackInverse bs (stackForward bs x) = x := by
  intro bs
  induction bs with
  | nil =>
    intro x h
    simp [stackForward, stackInverse]
  | cons b bs ih =>
    intro x h
    obtain ⟨hb, hrest⟩ := h
    simp only [stackForward, stackInverse, List.foldl_cons, List.reverse_cons,
      List.foldl_append, List.foldl_nil]
    have hih := ih (b.forward x) hrest
    simp only [stackForward, stackInverse] at hih
    rw [hih]
    have := block_inverse_forward_aux b x.1 x.2 hb
    rwa [Prod.mk.eta] at this

/-- C2: for a validly configured network and input (`stackOK` along the
forward trajectory, permutation-compatible input shape, balanced final
split), `iRevNet.inverse` applied to the bijective features returned by
`iRevNet.forward` splits them, runs every block inverse in reversed order,
merges, undoes the initial permutation when `init_ds != 0`, and reconstructs
the input tensor exactly. -/
theorem iRevNet_inverse_forward (net : iRevNet) (x : Tensor)
    (h0 : net.init_ds ≠ 0 → psiOK net.init_ds x)
    (hOK : stackOK net.stack (net.initPair x))
    (hbal : (stackForward net.stack (net.initPair x)).1.length =
      (stackForward net.stack (net.initPair x)).2.length) :
    net.inverse (net.forward x).2 = x := by
  have hsnd : (net.forward x).2 =
      merge (stackForward net.stack (net.initPair x)).1
        (stackForward net.stack (net.initPair x)).2 := rfl
  have hsplit : split ((net.forward x).2) = stackForward net.stack (net.initPair x) := by
    rw [hsnd, split_merge_eq _ _ hbal]
  simp only [iRevNet.inverse]
  rw [hsplit, stackInverse_stackForward _ _ hOK]
  have hmerge : merge (net.initPair x).1 (net.initPair x).2 = net.initDown x := by
    simp [iRevNet.initPair, merge, List.take_append_drop]
  rw [hmerge]
  by_cases h : net.init_ds = 0
  · simp [iRevNet.initDown, h]
  · rw [if_pos h, iRevNet.initDown, if_pos h]
    exact psi_inverse_forward _ h x (h0 h)

theorem iRevNet_inverse_forward_witness :
    stackOK netW.stack (netW.initPair [[5], [7]]) ∧
      netW.inverse ((netW.forward [[5], [7]]).2) = [[5], [7]] :=
  ⟨by decide,
   iRevNet_inverse_forward netW [[5], [7]] (fun h => absurd rfl h) (by decide)
     (by decide)⟩

theorem forward_pad_eq (b : irevnet_block) (x1 x2 : Tensor) (h1 : b.stride = 1)
    (hp : b.pad ≠ 0) :
    b.forward (x1, x2) =
      ((split (injective_pad.forward b.pad.toNat (merge x1 x2))).2,
       tensorAdd
         (b.bottleneck_block
           (split (injective_pad.forward b.pad.toNat (merge x1 x2))).2)
         (split (injective_pad.forward b.pad.toNat (merge x1 x2))).1) := by
  simp [irevnet_block.forward, irevnet_block.padInput, h1, hp]

theorem inverse_pad_eq (b : irevnet_block) (x2 y1 : Tensor) (h1 : b.stride = 1)
    (hp : b.pad ≠ 0) :
    b.inverse (x2, y1) =
      split (injective_pad.inverse b.pad.toNat
        (merge (tensorAdd (tensorNeg (b.bottleneck_block x2)) y1) x2)) := by
  simp [irevnet_block.inverse, h1, hp]

/-- C5: `irevnet_block.forward` computes `Fx2 = F(x2)` and returns
`(x2_after, Fx2 + x1_after)`; at stride 2 the spatial permutation is applied
to both halves before combining, at stride 1 `x2` passes unchanged; when
`pad != 0` at stride 1 (the only configuration that grows the channel count)
the pair is first merged, zero-padded and re-split. -/
theorem irevnet_block_forward_structure (b : irevnet_block) (x1 x2 : Tensor) :
    (b.stride = 2 →
      b.forward (x1, x2) =
        (psi.forward b.stride x2,
         tensorAdd (b.bottleneck_block x2) (psi.forward b.stride x1))) ∧
    (b.stride = 1 → b.pad = 0 →
      b.forward (x1, x2) = (x2, tensorAdd (b.bottleneck_block x2) x1)) ∧
    (b.stride = 1 → b.pad ≠ 0 →
      b.forward (x1, x2) =
        ((split (injective_pad.forward b.pad.toNat (merge x1 x2))).2,
         tensorAdd
           (b.bottleneck_block
             (split (injective_pad.forward b.pad.toNat (merge x1 x2))).2)
           (split (injective_pad.forward b.pad.toNat (merge x1 x2))).1)) := by
  refine ⟨fun h2 => ?_, fun h1 hp => ?_, fun h1 hp => forward_pad_eq b x1 x2 h1 hp⟩ <;>
    simp [irevnet_block.forward, irevnet_block.padInput, *]

theorem irevnet_block_forward_structure_witness :
    blockW5.forward ([[1, 2, 3, 4]], [[5, 6, 7, 8]]) =
      (psi.forward blockW5.stride [[5, 6, 7, 8]],
       tensorAdd (blockW5.bottleneck_block [[5, 6, 7, 8]])
         (psi.forward blockW5.stride [[1, 2, 3, 4]])) :=
  (irevnet_block_forward_structure blockW5 [[1, 2, 3, 4]] [[5, 6, 7, 8]]).1 rfl

/-- C6: `irevnet_block.inverse` undoes the permutation on `x2` at stride 2,
computes `Fx2 = -F(x2)`, recovers `x1 = Fx2 + y1`, undoes the permutation on
`x1` at stride 2, and in the padded configuration merges, truncates the
injected channels, and re-splits. -/
theorem irevnet_block_inverse_structure (b : irevnet_block) (x2 y1 : Tensor) :
    (b.stride = 2 →
      b.inverse (x2, y1) =
        (psi.inverse b.stride
          (tensorAdd (tensorNeg (b.bottleneck_block (psi.inverse b.stride x2))) y1),
         psi.inverse b.stride x2)) ∧
    (b.stride = 1 → b.pad = 0 →
      b.inverse (x2, y1) = (tensorAdd (tensorNeg (b.bottleneck_block x2)) y1, x2)) ∧
    (b.stride = 1 → b.pad ≠ 0 →
      b.inverse (x2, y1) =
        split (injective_pad.inverse b.pad.toNat
          (merge (tensorAdd (tensorNeg (b.bottleneck_block x2)) y1) x2))) := by
  refine ⟨fun h2 => ?_, fun h1 hp => ?_, fun h1 hp => inverse_pad_eq b x2 y1 h1 hp⟩ <;>
    simp [irevnet_block.inverse, *]

theorem irevnet_block_inverse_structure_witness :
    blockW7.inverse ([[1]], [[2]]) =
      split (injective_pad.inverse blockW7.pad.toNat
        (merge (tensorAdd (tensorNeg (blockW7.bottleneck_block [[1]])) [[2]]) [[1]])) :=
  (irevnet_block_inverse_structure blockW7 [[1]] [[2]]).2.2 rfl (by decide)

/-- C7: for a block with `pad > 0` at stride 1 whose input pair carries
`in_ch` channels in total (and whose bottleneck maps `out_ch` channels to
`out_ch` channels), both halves of the forward output carry exactly `out_ch`
channels, and the block inverse recovers a pair whose total channel count is
exactly the original `in_ch`. -/
theorem irevnet_block_pad_channels (b : irevnet_block) (x1 x2 : Tensor)
    (hs : b.stride = 1) (hpad : 0 < b.pad)
    (hin : x1.length + x2.length = b.in_ch)
    (hF : ∀ t : Tensor, t.length = b.out_ch →
      (b.bottleneck_block t).length = b.out_ch) :
    (b.forward (x1, x2)).1.length = b.out_ch ∧
    (b.forward (x1, x2)).2.length = b.out_ch ∧
    (b.inverse (b.forward (x1, x2))).1.length +
      (b.inverse (b.forward (x1, x2))).2.length = b.in_ch := by
  have hpadval : b.pad = 2 * (b.out_ch : Int) - (b.in_ch : Int) := rfl
  have hne : b.pad ≠ 0 := by omega
  have hlt : b.in_ch < 2 * b.out_ch := by omega
  have htn : b.pad.toNat = 2 * b.out_ch - b.in_ch := by omega
  have hml : ∀ (u v : Tensor), (merge u v).length = u.length + v.length := by
    intro u v; simp [merge]
  have hqlen : (injective_pad.forward b.pad.toNat (merge x1 x2)).length =
      2 * b.out_ch := by
    simp only [injective_pad.forward, List.length_append, List.length_replicate,
      hml]
    omega
  have hp1len : (split (injective_pad.forward b.pad.toNat (merge x1 x2))).1.length =
      b.out_ch := by
    simp only [split, List.length_take, hqlen]
    omega
  have hp2len : (split (injective_pad.forward b.pad.toNat (merge x1 x2))).2.length =
      b.out_ch := by
    simp only [split, List.length_drop, hqlen]
    omega
  have hFlen : (b.bottleneck_block
      (split (injective_pad.forward b.pad.toNat (merge x1 x2))).2).length =
      b.out_ch := hF _ hp2len
  rw [forward_pad_eq b x1 x2 hs hne]
  have hy1len : (tensorAdd
      (b.bottleneck_block
        (split (injective_pad.forward b.pad.toNat (merge x1 x2))).2)
      (split (injective_pad.forward b.pad.toNat (merge x1 x2))).1).length =
      b.out_ch := by
    simp only [tensorAdd, List.length_zipWith, hFlen, hp1len]
    omega
  refine ⟨hp2len, hy1len, ?_⟩
  rw [inverse_pad_eq b _ _ hs hne]
  have hx1rlen : (tensorAdd
      (tensorNeg (b.bottleneck_block
        (split (injective_pad.forward b.pad.toNat (merge x1 x2))).2))
      (tensorAdd
        (b.bottleneck_block
          (split (injective_pad.forward b.pad.toNat (merge x1 x2))).2)
        (split (injective_pad.forward b.pad.toNat (merge x1 x2))).1)).length =
      b.out_ch := by
    simp only [tensorAdd, tensorNeg, List.length_zipWith, List.length_map,
      hFlen, hp1len]
    omega
  have hinvlen : (injective_pad.inverse b.pad.toNat
      (merge
        (tensorAdd
          (tensorNeg (b.bottleneck_block
            (split (injective_pad.forward b.pad.toNat (merge x1 x2))).2))
          (tensorAdd
            (b.bottleneck_block
              (split (injective_pad.forward b.pad.toNat (merge x1 x2))).2)
            (split (injective_pad.forward b.pad.toNat (merge x1 x2))).1))
        (split (injective_pad.forward b.pad.toNat (merge x1 x2))).2)).length =
      b.in_ch := by
    simp only [injective_pad.inverse, List.length_take, hml, hx1rlen, hp2len]
    omega
  exact (split_length_sum _).trans hinvlen

theorem irevnet_block_pad_channels_witness :
    (0 : Int) < blockW7.pad ∧
    ((blockW7.forward ([[1]], [[2]])).1.length = blockW7.out_ch ∧
      (blockW7.forward ([[1]], [[2]])).2.length = blockW7.out_ch ∧
      (blockW7.inverse (blockW7.forward ([[1]], [[2]]))).1.length +
        (blockW7.inverse (blockW7.forward ([[1]], [[2]]))).2.length =
        blockW7.in_ch) :=
  ⟨by decide,
   irevnet_block_pad_channels blockW7 [[1]] [[2]] rfl (by decide) (by decide)
     (fun t ht => ht)⟩

/-- C8: `split` and `merge` are mutual inverses partitioning the channels in
a fixed, deterministic order: `merge (split t) = t` for an even channel
count and `split (merge a b) = (a, b)` for equal-shaped halves. -/
theorem split_merge_mutual (t a b : Tensor) (ht : 2 ∣ t.length)
    (hab : a.length = b.length) :
    merge (split t).1 (split t).2 = t ∧ split (merge a b) = (a, b) :=
  ⟨merge_split_eq t, split_merge_eq a b hab⟩

theorem split_merge_mutual_witness :
    2 ∣ ([[1], [2]] : Tensor).length ∧
    ([[3]] : Tensor).length = ([[4]] : Tensor).length ∧
    (merge (split [[1], [2]]).1 (split [[1], [2]]).2 = [[1], [2]] ∧
      split (merge [[3]] [[4]]) = ([[3]], [[4]])) :=
  ⟨by decide, rfl, split_merge_mutual [[1], [2]] [[3]] [[4]] (by decide) rfl⟩

/-- C9: block and network forward/inverse are pure: in state-passing form
they leave the block and network state unchanged, and `iRevNet.inverse` is
determined by the stack and `init_ds` alone (no hidden cache of forward
activations is read; the residual partner is recomputed inside
`irevnet_block.inverse` via a second evaluation of `bottleneck_block`). -/
theorem irevnet_inverse_pure (b : irevnet_block) (x : Tensor × Tensor)
    (net net₂ : iRevNet) (x0 t : Tensor) :
    (b.forwardS x).1 = b ∧ (b.inverseS x).1 = b ∧
    (net.forwardS x0).1 = net ∧ (net.inverseS t).1 = net ∧
    (net.stack = net₂.stack → net.init_ds = net₂.init_ds →
      net.inverse t = net₂.inverse t) := by
  refine ⟨rfl, rfl, rfl, rfl, fun hs hd => ?_⟩
  simp [iRevNet.inverse, hs, hd]

theorem irevnet_inverse_pure_witness :
    (blockW1.forwardS ([[3]], [[4]])).1 = blockW1 ∧
    (blockW1.inverseS ([[3]], [[4]])).1 = blockW1 ∧
    netWA.inverse [[1], [2]] = netWB.inverse [[1], [2]] := by
  have h := irevnet_inverse_pure blockW1 ([[3]], [[4]]) netWA netWB [[0]] [[1], [2]]
  exact ⟨h.1, h.2.1, h.2.2.2.2 rfl rfl⟩

theorem take_zip :
    ∀ (n : Nat) (l₁ : List α) (l₂ : List β),
      (l₁.take n).zip (l₂.take n) = (l₁.zip l₂).take n := by
  intro n
  induction n with
  | zero => intro l₁ l₂; simp
  | succ n ih =>
    intro l₁ l₂
    cases l₁ with
    | nil => simp
    | cons a t₁ =>
      cases l₂ with
      | nil => simp
      | cons b t₂ => simp [ih t₁ t₂]

/-- C3 counterexample: `irevnet_stack` is a total function of its schedule
lists; with mismatched lengths it raises nothing and returns exactly the
stack built from the schedules truncated to the shortest list. -/
theorem irevnet_stack_mismatched_cex :
    irevnet_stack [4, 8] [2] [1, 2] 0 true 4 4 =
      irevnet_stack [4] [2] [1] 0 true 4 4 ∧
    (irevnet_stack [4, 8] [2] [1, 2] 0 true 4 4).length = 2 := by
  constructor <;> decide

/-- C3 (amended): constructing the stack with schedule lists of mismatched
lengths does not fail; the `zip` over the three lists silently truncates
them, so the result equals the stack built from the schedules truncated to
the shortest length. -/
theorem irevnet_stack_truncates (nCh nB nS : List Nat) (dr : ℚ) (aff : Bool)
    (in0 mult : Nat) :
    irevnet_stack nCh nB nS dr aff in0 mult =
      irevnet_stack (nCh.take (min nCh.length (min nB.length nS.length)))
        (nB.take (min nCh.length (min nB.length nS.length)))
        (nS.take (min nCh.length (min nB.length nS.length))) dr aff in0 mult := by
  have hz : (nCh.take (min nCh.length (min nB.length nS.length))).zip
      ((nB.take (min nCh.length (min nB.length nS.length))).zip
        (nS.take (min nCh.length (min nB.length nS.length)))) =
      nCh.zip (nB.zip nS) := by
    rw [take_zip, take_zip]
    apply List.take_of_length_le
    simp [List.length_zip]
  simp only [irevnet_stack, expandSchedule]
  rw [hz]

theorem foldl_pair_append (f g : α → List β) :
    ∀ (l : List α) (acc : List β × List β),
      l.foldl (fun a t => (a.1 ++ f t, a.2 ++ g t)) acc =
        (acc.1 ++ l.flatMap f, acc.2 ++ l.flatMap g) := by
  intro l
  induction l with
  | nil => intro acc; simp
  | cons a t ih => intro acc; simp [ih]

theorem expandSchedule_fst (nCh nB nS : List Nat) :
    (expandSchedule nCh nB nS).1 =
      (nCh.zip (nB.zip nS)).flatMap
        (fun t => t.2.2 :: List.replicate (t.2.1 - 1) 1) := by
  simp only [expandSchedule]
  rw [foldl_pair_append]
  simp

theorem irevnet_stack_eq_buildBlocks (nCh nB nS : List Nat) (dr : ℚ)
    (aff : Bool) (in0 mult : Nat) :
    irevnet_stack nCh nB nS dr aff in0 mult =
      buildBlocks dr aff mult
        ((expandSchedule nCh nB nS).2.zip (expandSchedule nCh nB nS).1) in0 true := by
  have hfold : ∀ (l : List (Nat × Nat)) (acc : List BlockCfg) (ic : Nat) (fi : Bool),
      (l.foldl (fun (a : List BlockCfg × Nat × Bool) cs =>
          (a.1 ++ [⟨a.2.1, cs.1, cs.2, a.2.2, dr, aff, mult⟩], 2 * cs.1, false))
        (acc, ic, fi)).1 = acc ++ buildBlocks dr aff mult l ic fi := by
    intro l
    induction l with
    | nil => intro acc ic fi; simp [buildBlocks]
    | cons c t ih => intro acc ic fi; simp [buildBlocks, ih]
  simp only [irevnet_stack]
  rw [hfold]
  simp

theorem buildBlocks_chain (dr : ℚ) (aff : Bool) (mult : Nat) :
    ∀ (l : List (Nat × Nat)) (ic : Nat) (fi : Bool),
      List.Chain' (fun a c : BlockCfg => c.in_ch = 2 * a.out_ch)
        (buildBlocks dr aff mult l ic fi) ∧
      (∀ c ∈ (buildBlocks dr aff mult l ic fi).head?, c.in_ch = ic) := by
  intro l
  induction l with
  | nil => intro ic fi; simp [buildBlocks]
  | cons p t ih =>
    intro ic fi
    obtain ⟨hc, hh⟩ := ih (2 * p.1) false
    refine ⟨?_, ?_⟩
    · simp only [buildBlocks]
      rw [List.chain'_cons']
      exact ⟨fun c hc2 => by simpa using hh c hc2, hc⟩
    · simp [buildBlocks]

theorem buildBlocks_head_first (dr : ℚ) (aff : Bool) (mult : Nat)
    (l : List (Nat × Nat)) (ic : Nat) (fi : Bool) :
    ∀ c ∈ (buildBlocks dr aff mult l ic fi).head?, c.first = fi := by
  cases l with
  | nil => simp [buildBlocks]
  | cons p t => simp [buildBlocks]

theorem buildBlocks_first_false (dr : ℚ) (aff : Bool) (mult : Nat) :
    ∀ (l : List (Nat × Nat)) (ic : Nat),
      ∀ c ∈ buildBlocks dr aff mult l ic false, c.first = false := by
  intro l
  induction l with
  | nil => intro ic c hc; simp [buildBlocks] at hc
  | cons p t ih =>
    intro ic c hc
    simp only [buildBlocks, List.mem_cons] at hc
    rcases hc with h | h
    · simp [h]
    · exact ih (2 * p.1) c h

theorem buildBlocks_drop_first_false (dr : ℚ) (aff : Bool) (mult : Nat)
    (l : List (Nat × Nat)) (ic : Nat) (fi : Bool) :
    ∀ c ∈ (buildBlocks dr aff mult l ic fi).drop 1, c.first = false := by
  cases l with
  | nil => simp [buildBlocks]
  | cons p t =>
    intro c hc
    simp only [buildBlocks, List.drop_succ_cons, List.drop_zero] at hc
    exact buildBlocks_first_false dr aff mult t (2 * p.1) c hc

theorem take_one_mem {α : Type} (l : List α) (P : α → Prop)
    (h : ∀ c ∈ l.head?, P c) : ∀ c ∈ l.take 1, P c := by
  cases l with
  | nil => intro c hc; simp at hc
  | cons a t =>
    intro c hc
    simp at hc
    rw [hc]
    exact h a (by simp)

/-- C4: for equal-length schedules, the expanded stride list gives each
stage its configured stride on the first block only (all later blocks of the
stage get stride 1); along the built stack the input channel count of each
next block is twice the previous block's output channel count; and only the
very first block of the whole stack carries `first = true`. -/
theorem irevnet_stack_schedule (nCh nB nS : List Nat) (dr : ℚ) (aff : Bool)
    (in0 mult : Nat) (h1 : nCh.length = nB.length) (h2 : nB.length = nS.length) :
    (expandSchedule nCh nB nS).1 =
      (nB.zip nS).flatMap (fun ds => ds.2 :: List.replicate (ds.1 - 1) 1) ∧
    List.Chain' (fun a c : BlockCfg => c.in_ch = 2 * a.out_ch)
      (irevnet_stack nCh nB nS dr aff in0 mult) ∧
    (∀ c ∈ (irevnet_stack nCh nB nS dr aff in0 mult).take 1, c.first = true) ∧
    (∀ c ∈ (irevnet_stack nCh nB nS dr aff in0 mult).drop 1, c.first = false) := by
  have hmap : (nCh.zip (nB.zip nS)).map Prod.snd = nB.zip nS :=
    List.map_snd_zip _ _ (by simp [List.length_zip]; omega)
  refine ⟨?_, ?_, ?_, ?_⟩
  · rw [expandSchedule_fst]
    conv_rhs => rw [← hmap, List.flatMap_map]
  · rw [irevnet_stack_eq_buildBlocks]
    exact (buildBlocks_chain dr aff mult _ in0 true).1
  · rw [irevnet_stack_eq_buildBlocks]
    exact take_one_mem _ _ (buildBlocks_head_first dr aff mult _ in0 true)
  · rw [irevnet_stack_eq_buildBlocks]
    exact buildBlocks_drop_first_false dr aff mult _ in0 true

theorem irevnet_stack_schedule_witness :
    ([4, 8] : List Nat).length = ([2, 3] : List Nat).length ∧
    ([2, 3] : List Nat).length = ([1, 2] : List Nat).length ∧
    (expandSchedule [4, 8] [2, 3] [1, 2]).1 = [1, 1, 2, 1, 1] ∧
    List.Chain' (fun a c : BlockCfg => c.in_ch = 2 * a.out_ch)
      (irevnet_stack [4, 8] [2, 3] [1, 2] 0 true 4 4) := by
  have h := irevnet_stack_schedule [4, 8] [2, 3] [1, 2] 0 true 4 4 rfl rfl
  exact ⟨rfl, rfl, h.1.trans (by decide), h.2.1⟩

/-- C10: when `nChannels` is omitted (`None`) or empty, the channel schedule
defaults to the four-stage list
`[in_ch//2, in_ch//2*4, in_ch//2*16, in_ch//2*64]` with
`in_ch = in_shape[0] * 2^init_ds`, regardless of `nBlocks` and `nStrides`. -/
theorem iRevNet_default_channels (nB nS : List Nat) (init_ds : Nat) (dr : ℚ)
    (aff : Bool) (sh0 sh1 sh2 mult : Nat) :
    (iRevNet.init nB nS none init_ds dr aff [sh0, sh1, sh2] mult).nChannels =
      [sh0 * 2 ^ init_ds / 2, sh0 * 2 ^ init_ds / 2 * 4,
       sh0 * 2 ^ init_ds / 2 * 16, sh0 * 2 ^ init_ds / 2 * 64] ∧
    (iRevNet.init nB nS (some []) init_ds dr aff [sh0, sh1, sh2] mult).nChannels =
      [sh0 * 2 ^ init_ds / 2, sh0 * 2 ^ init_ds / 2 * 4,
       sh0 * 2 ^ init_ds / 2 * 16, sh0 * 2 ^ init_ds / 2 * 64] := by
  constructor <;> norm_num [iRevNet.init]
